import Mathlib

/-!
Verification of `batch_inference.py` (LatentSyncUtils).

The script discovers `.mp4` / `.wav` files, pairs each audio file with a
randomly chosen video, shells out to an external inference command once per
pair, and prints progress plus a final summary.  This file gives a shallow
embedding of the script: directory listings become `Option (List String)`,
the global `random` stream becomes explicit draw oracles, `subprocess.run`
becomes an `ExecOutcome` oracle, wall-clock time becomes a `clock` oracle,
and Python exceptions become explicit error results (`PyError`).
-/

/-- Characters of a string split on a separator character, mirroring how a
POSIX path is split on `/`.  Always returns a non-empty list of groups. -/
def splitOnChar (c : Char) : List Char → List (List Char)
  | [] => [[]]
  | a :: rest =>
    let r := splitOnChar c rest
    if a = c then [] :: r
    else
      match r with
      | [] => [[a]]
      | g :: gs => (a :: g) :: gs

/-- Index of the last `.` in a character list, if any (Python `str.rfind('.')`). -/
def lastDotIdx : List Char → Option Nat
  | [] => none
  | a :: rest =>
    match lastDotIdx rest with
    | some j => some (j + 1)
    | none => if a = '.' then some 0 else none

/-- Stem of a file name, following CPython `pathlib`: the suffix is
`name[i:]` when `i = name.rfind('.')` satisfies `0 < i < len(name) - 1`,
and the stem is the name with the suffix removed. -/
def stemChars (name : List Char) : List Char :=
  match lastDotIdx name with
  | none => name
  | some i => if 0 < i ∧ i + 1 < name.length then name.take i else name

/-- Python `Path(s).stem`: basename of the path (text after the last `/`)
with its final extension removed.  Used at `batch_inference.py:189-190`. -/
def pyStem (s : String) : String :=
  ⟨stemChars ((splitOnChar '/' s.data).getLastD s.data)⟩

/-- Lexicographic comparison of character lists by code point; this is how
Python compares strings in `sorted(...)`. -/
def lexLe : List Char → List Char → Bool
  | [], _ => true
  | _ :: _, [] => false
  | a :: as, b :: bs =>
    if a.toNat < b.toNat then true
    else if b.toNat < a.toNat then false
    else lexLe as bs

/-- Python string `<=` (code-point lexicographic order). -/
def strLe (a b : String) : Bool :=
  lexLe a.data b.data

/-- Glob pattern `*.ext` as used by `Path(dir).glob("*.mp4")`: an entry
matches when it ends with the extension. -/
def globMatchExt (ext : String) (f : String) : Bool :=
  ext.data.isSuffixOf f.data

/-- Model of `get_video_files` (`batch_inference.py:17-26`): a directory
listing is `none` when the directory does not exist; otherwise the entries
matching `*.mp4` are collected and returned via Python `sorted(...)`,
modelled as a stable sort by code-point order. -/
def get_video_files (dirListing : Option (List String)) : List String :=
  match dirListing with
  | none => []
  | some entries =>
    List.insertionSort (fun x y => strLe x y = true)
      (entries.filter (fun f => globMatchExt ".mp4" f))

/-- Model of `get_audio_files` (`batch_inference.py:28-37`), identical to
`get_video_files` but for the `*.wav` pattern. -/
def get_audio_files (dirListing : Option (List String)) : List String :=
  match dirListing with
  | none => []
  | some entries =>
    List.insertionSort (fun x y => strLe x y = true)
      (entries.filter (fun f => globMatchExt ".wav" f))

/-- Parsed value of the `--allow_repeat_videos` option
(`batch_inference.py:107-108`).  The option is declared with
`action="store_true"` and `default=True`: when the flag is present on the
command line `True` is stored, and when absent the default `True` is used. -/
def parseAllowRepeatVideos (flagPresent : Bool) : Bool :=
  if flagPresent then true else true

/-- Python `random.choice(l)` given one raw draw from the random stream:
a uniform index into the list.  (On an empty list the real call raises;
every call site in the script guarantees a non-empty list.) -/
def pyChoice (l : List String) (draw : Nat) : String :=
  l.getD (draw % l.length) ""

/-- Python `random.sample(l, k)` for `0 ≤ k < len(l)` given raw draws:
repeatedly pick a uniform index into the remaining list and remove it. -/
def pySample : List String → Nat → (Nat → Nat) → List String
  | _, 0, _ => []
  | l, k + 1, r =>
    if l = [] then []
    else
      l.getD (r 0 % l.length) "" ::
        pySample (l.eraseIdx (r 0 % l.length)) k (fun j => r (j + 1))

/-- Output filename synthesis (`batch_inference.py:189-192`):
`f"{video_name}_{audio_name}_{timestamp}.mp4"`. -/
def output_filename (videoStem audioStem timestamp : String) : String :=
  videoStem ++ "_" ++ audioStem ++ "_" ++ timestamp ++ ".mp4"

/-- Outcome of attempting `subprocess.run(cmd, check=True, ...)`:
either the external process ran and exited with a status code (stderr
captured), or the command could not be launched at all (`OSError`). -/
inductive ExecOutcome where
  | exited (code : Nat) (stderr : String)
  | launchError (msg : String)
deriving DecidableEq, Repr

/-- Whether the outcome is a launch failure. -/
def ExecOutcome.isLaunchError : ExecOutcome → Bool
  | .launchError _ => true
  | _ => false

/-- Result of one job as seen by the caller: success flag plus captured
diagnostic text on failure. -/
structure RunResult where
  success : Bool
  diagnostic : Option String
deriving DecidableEq, Repr

/-- Python exceptions that can escape the script uncaught. -/
inductive PyError where
  | valueError (msg : String)
  | zeroDivisionError
  | osError (msg : String)
deriving DecidableEq, Repr

/-- Model of the `try/except` in `run_inference` (`batch_inference.py:76-83`):
exit status 0 returns success; a nonzero exit raises
`subprocess.CalledProcessError`, which is caught, its stderr printed, and
`False` returned.  A launch failure raises `OSError`, which is NOT caught by
the `except subprocess.CalledProcessError` clause and propagates. -/
def run_inference : ExecOutcome → Except PyError RunResult
  | .exited 0 _ => .ok ⟨true, none⟩
  | .exited (_ + 1) stderr => .ok ⟨false, some stderr⟩
  | .launchError msg => .error (.osError msg)

/-- The per-outcome `RunResult` (total version of `run_inference`, used to
state what a run that never hits a launch failure accumulates). -/
def resultOf : ExecOutcome → RunResult
  | .exited 0 _ => ⟨true, none⟩
  | .exited (_ + 1) stderr => ⟨false, some stderr⟩
  | .launchError msg => ⟨false, some msg⟩

/-- Raw draw streams of the process-wide `random` module, split by call
site: draws consumed by `random.sample`, by `random.choice`, and by
`random.randint` in `run_inference`. -/
structure Rng where
  sampleDraw : Nat → Nat
  choiceDraw : Nat → Nat
  seedDraw : Nat → Nat

/-- Model of `random.seed(args.random_seed)` (`batch_inference.py:113-114`):
when a global seed is supplied the stream is the deterministic
Mersenne-Twister stream `mt seed`; otherwise it is OS entropy. -/
def seededRng (mt : Int → Rng) (entropy : Rng) (randomSeed : Option Int) : Rng :=
  match randomSeed with
  | some s => mt s
  | none => entropy

/-- Seed passed to the external command for job `n`
(`batch_inference.py:49-50, 208`): the global seed when one was supplied,
otherwise `random.randint(1, 999999)` from a fresh draw. -/
def jobSeedAt (globalSeed : Option Int) (rng : Rng) (n : Nat) : Int :=
  match globalSeed with
  | some s => s
  | none => 1 + (rng.seedDraw n : Int) % 999999

/-- The up-front clearing of the used set
(`batch_inference.py:171-173`): `if len(used_videos) >= len(video_files):
used_videos.clear()`. -/
def clearIfExhausted (videos : List String) (used : Finset String) : Finset String :=
  if videos.length ≤ used.card then ∅ else used

/-- The not-yet-used videos (`batch_inference.py:178`):
`[v for v in video_files if v not in used_videos]`. -/
def availOf (videos : List String) (used : Finset String) : List String :=
  videos.filter (fun v => decide (v ∉ used))

/-- One video selection of the planner (`batch_inference.py:171-184`),
given the current used-video set and one raw draw.  Returns the selected
video and the updated used set.  Faithful to the code: with repeats
allowed a uniform choice over the full list is made and the used set is
untouched (the up-front clearing is guarded by `not allow_repeat`);
otherwise the used set is first cleared if it has reached the pool size,
the choice ranges over the not yet used videos, falling back to the full
list (after clearing) when none remain, and the selection is recorded as
used. -/
def planStep (allowRepeat : Bool) (videos : List String) (used : Finset String)
    (draw : Nat) : String × Finset String :=
  if allowRepeat then
    (pyChoice videos draw, used)
  else
    let u1 := clearIfExhausted videos used
    if availOf videos u1 = [] then
      (pyChoice videos draw, {pyChoice videos draw})
    else
      (pyChoice (availOf videos u1) draw, insert (pyChoice (availOf videos u1) draw) u1)

/-- Used-video set after `n` selections of the no-repeat planner, where
`r k` is the raw draw consumed by selection `k`. -/
def planState (videos : List String) (r : Nat → Nat) : Nat → Finset String
  | 0 => ∅
  | n + 1 => (planStep false videos (planState videos r n) (r n)).2

/-- Video selected by the no-repeat planner at step `n`. -/
def selAt (videos : List String) (r : Nat → Nat) (n : Nat) : String :=
  (planStep false videos (planState videos r n) (r n)).1

/-- Cardinality of the used set after `n` no-repeat selections over a
duplicate-free pool of `V` videos (reference dynamics: reset to 1 when the
pool is exhausted, otherwise grow by one). -/
def cyc (V : Nat) : Nat → Nat
  | 0 => 0
  | n + 1 => if V ≤ cyc V n then 1 else cyc V n + 1

/-- One planned job: the pair handed to the external command together with
the synthesized output filename and the per-job seed. -/
structure JobSpec where
  videoPath : String
  audioPath : String
  outputFilename : String
  seed : Int
deriving DecidableEq, Repr

/-- Contents of the final summary block (`batch_inference.py:229-241`). -/
structure Summary where
  totalProcessed : Nat
  successful : Nat
  failed : Nat
  successRate : ℚ
  totalTime : ℚ
  avgTimePerJob : ℚ
deriving DecidableEq, Repr

/-- The final summary (`batch_inference.py:234-239`): totals, success rate
`successful/combination_count*100`, total time, and average time per job.
The divisions by `combination_count` are unguarded in the code, so with
zero jobs the summary raises `ZeroDivisionError`, modelled as `none`. -/
def mkSummary (successful failed count : Nat) (totalTime : ℚ) : Summary :=
  ⟨count, successful, failed,
    (successful : ℚ) / (count : ℚ) * 100, totalTime, totalTime / (count : ℚ)⟩

/-- The zero-guard status of the summary: `none` models the
`ZeroDivisionError` raised when `combination_count` is zero. -/
def finalSummary (successful failed count : Nat) (totalTime : ℚ) : Option Summary :=
  if count = 0 then none
  else some (mkSummary successful failed count totalTime)

/-- Overall outcome of `main`: an early `return` with a message
(`batch_inference.py:130-136`), an uncaught exception propagating out of
the script, or a completed run with its jobs, per-job results, counters
and final summary. -/
inductive MainResult where
  | earlyExit (msg : String)
  | uncaught (e : PyError)
  | completed (jobs : List JobSpec) (results : List RunResult)
      (successful failed : Nat) (summary : Summary)
deriving DecidableEq, Repr

/-- Number of jobs of a completed run (zero for early exits and crashes). -/
def MainResult.jobCount : MainResult → Nat
  | .completed jobs _ _ _ _ => jobs.length
  | _ => 0

/-- Output filenames of the jobs of a completed run. -/
def MainResult.filenames : MainResult → List String
  | .completed jobs _ _ _ _ => jobs.map (fun j => j.outputFilename)
  | _ => []

/-- Whether every job of a completed run carries the seed `s` (vacuously
true otherwise). -/
def MainResult.seedsAllEq (s : Int) : MainResult → Bool
  | .completed jobs _ _ _ _ => jobs.all (fun j => j.seed == s)
  | _ => true

/-- Whether the run crashed with an uncaught `ZeroDivisionError`. -/
def MainResult.crashedZeroDiv : MainResult → Bool
  | .uncaught .zeroDivisionError => true
  | _ => false

/-- The audio files actually iterated over (`batch_inference.py:157-162`):
Python's `if args.max_combinations and args.max_combinations < len(audio_files)`
treats both `None` and `0` as falsy; inside the branch,
`random.sample(audio_files, k)` raises `ValueError` for negative `k`. -/
def audioFilesToProcess (audios : List String) (maxComb : Option Int)
    (sampleDraw : Nat → Nat) : Except PyError (List String) :=
  match maxComb with
  | none => .ok audios
  | some m =>
    if m ≠ 0 ∧ m < (audios.length : Int) then
      if m < 0 then .error (.valueError "Sample larger than population or is negative")
      else .ok (pySample audios m.toNat sampleDraw)
    else .ok audios

/-- The jobs the loop of `main` builds, one per selected audio file
(`batch_inference.py:169-210`): video from `planStep`, filename from
stems plus the planning-time timestamp `clock n`, seed from `jobSeedAt`. -/
def planJobs (videos : List String) (allowRepeat : Bool) (rng : Rng)
    (randomSeed : Option Int) (clock : Nat → String) :
    List String → Nat → Finset String → List JobSpec
  | [], _, _ => []
  | audio :: rest, n, used =>
    let p := planStep allowRepeat videos used (rng.choiceDraw n)
    ⟨p.1, audio, output_filename (pyStem p.1) (pyStem audio) (clock n),
      jobSeedAt randomSeed rng n⟩ ::
      planJobs videos allowRepeat rng randomSeed clock rest (n + 1) p.2

/-- Results accumulated along a list of jobs when no launch failure occurs. -/
def execResultsFrom (exec : Nat → ExecOutcome) : Nat → List String → List RunResult
  | _, [] => []
  | n, _ :: rest => resultOf (exec n) :: execResultsFrom exec (n + 1) rest

/-- The main job loop (`batch_inference.py:169-241`): for each remaining
audio file select a video, build the job, invoke the command; a nonzero
exit increments `failed` and the loop continues, while a launch failure
propagates out as an uncaught exception.  After the loop the final
summary is computed. -/
def runJobs (videos : List String) (allowRepeat : Bool) (rng : Rng)
    (randomSeed : Option Int) (clock : Nat → String) (exec : Nat → ExecOutcome)
    (totalTime : ℚ) :
    List String → Nat → Finset String → List JobSpec → List RunResult →
    Nat → Nat → MainResult
  | [], _, _, jobs, results, succ, fail =>
    match finalSummary succ fail jobs.length totalTime with
    | none => .uncaught .zeroDivisionError
    | some sm => .completed jobs results succ fail sm
  | audio :: rest, n, used, jobs, results, succ, fail =>
    let p := planStep allowRepeat videos used (rng.choiceDraw n)
    let job : JobSpec :=
      ⟨p.1, audio, output_filename (pyStem p.1) (pyStem audio) (clock n),
        jobSeedAt randomSeed rng n⟩
    match run_inference (exec n) with
    | .error e => .uncaught e
    | .ok res =>
      runJobs videos allowRepeat rng randomSeed clock exec totalTime rest (n + 1) p.2
        (jobs ++ [job]) (results ++ [res])
        (succ + (if res.success then 1 else 0))
        (fail + (if res.success then 0 else 1))

/-- Model of `main` (`batch_inference.py:85-241`) from the point where the
video and audio lists have been discovered: empty-list checks, optional
truncation of the audio list, then the job loop.  `mt`/`entropy` model the
seeded and unseeded `random` streams, `clock` the per-job wall-clock
timestamp, `exec` the external command's behaviour, and `totalTime` the
measured wall time of the whole run. -/
def mainRun (videos audios : List String) (maxComb : Option Int)
    (allowRepeat : Bool) (randomSeed : Option Int) (mt : Int → Rng)
    (entropy : Rng) (clock : Nat → String) (exec : Nat → ExecOutcome)
    (totalTime : ℚ) : MainResult :=
  let rng := seededRng mt entropy randomSeed
  if videos = [] then .earlyExit "No video files found!"
  else if audios = [] then .earlyExit "No audio files found!"
  else
    match audioFilesToProcess audios maxComb rng.sampleDraw with
    | .error e => .uncaught e
    | .ok toProcess =>
      runJobs videos allowRepeat rng randomSeed clock exec totalTime
        toProcess 0 ∅ [] [] 0 0

/-- Job-count bound after amendment of the cap semantics: a positive cap
bounds the number of jobs by `min cap (len audios)`; an unset or zero cap
leaves the full audio list. -/
def capBound (maxComb : Option Int) (audios : List String) : Int :=
  match maxComb with
  | none => (audios.length : Int)
  | some m => if 0 < m then min m (audios.length : Int) else (audios.length : Int)

/-- A completed run respects the (amended) cap bound; other outcomes are
unconstrained. -/
def jobCountWithinCap (audios : List String) (maxComb : Option Int) :
    MainResult → Prop
  | .completed jobs _ _ _ _ => (jobs.length : Int) ≤ capBound maxComb audios
  | _ => True

/-- A completed run's summary is exactly the printed block of
`batch_inference.py:234-239`, and at least one job ran. -/
def summaryWellFormed (totalTime : ℚ) : MainResult → Prop
  | .completed jobs _ succ fail sm =>
    1 ≤ jobs.length ∧ sm.totalProcessed = jobs.length ∧ sm.successful = succ ∧
      sm.failed = fail ∧
      sm.successRate = (succ : ℚ) / (jobs.length : ℚ) * 100 ∧
      sm.totalTime = totalTime ∧
      sm.avgTimePerJob = totalTime / (jobs.length : ℚ)
  | _ => True

/-- Every job's output filename of a completed run is synthesized from its
video stem, its audio stem and the planning-time timestamp of its position. -/
def filenamesSynthesized (clock : Nat → String) : MainResult → Prop
  | .completed jobs _ _ _ _ =>
    jobs.map (fun j => j.outputFilename) =
      (jobs.zip (List.range jobs.length)).map
        (fun q => output_filename (pyStem q.1.videoPath) (pyStem q.1.audioPath) (clock q.2))
  | _ => True

/-- In a completed run without a global seed, job `i`'s seed is the fresh
draw `i` of the seed stream. -/
def freshSeedsSpec (rng : Rng) : MainResult → Prop
  | .completed jobs _ _ _ _ =>
    jobs.map (fun j => j.seed) =
      (List.range jobs.length).map (fun i => jobSeedAt none rng i)
  | _ => True

/-- Concrete draw streams used in the closed instances below: sampling and
seed draws always `0`, choice draw `n` at step `n`. -/
def rng0 : Rng := ⟨fun _ => 0, fun n => n, fun _ => 0⟩

/-- Concrete seeded-stream family for closed instances. -/
def mt0 : Int → Rng := fun _ => rng0

/-- Concrete per-job wall clock (a fixed second) for closed instances. -/
def clock0 : Nat → String := fun _ => "20240101_000000"

/-- External command that always succeeds, for closed instances. -/
def execOk : Nat → ExecOutcome := fun _ => .exited 0 ""

/-! ### Basic lemmas about the random primitives -/

theorem pyChoice_mem {l : List String} (h : l ≠ []) (d : Nat) : pyChoice l d ∈ l := by
  have hpos : 0 < l.length := List.length_pos.mpr h
  have hlt : d % l.length < l.length := Nat.mod_lt _ hpos
  rw [pyChoice, List.getD_eq_getElem l "" hlt]
  exact List.getElem_mem hlt

theorem pySample_length_le : ∀ (k : Nat) (l : List String) (r : Nat → Nat),
    (pySample l k r).length ≤ k := by
  intro k
  induction k with
  | zero => intro l r; simp [pySample]
  | succ k ih =>
    intro l r
    rw [pySample]
    split
    · simp
    · simpa using ih _ _

theorem pySample_length_le_length : ∀ (k : Nat) (l : List String) (r : Nat → Nat),
    (pySample l k r).length ≤ l.length := by
  intro k
  induction k with
  | zero => intro l r; simp [pySample]
  | succ k ih =>
    intro l r
    rw [pySample]
    split
    · simp
    · rename_i hne
      have hpos : 0 < l.length := List.length_pos.mpr hne
      have hmod : r 0 % l.length < l.length := Nat.mod_lt _ hpos
      have herase : (l.eraseIdx (r 0 % l.length)).length = l.length - 1 := by
        rw [List.length_eraseIdx, if_pos hmod]
      have := ih (l.eraseIdx (r 0 % l.length)) (fun j => r (j + 1))
      simp only [List.length_cons]
      omega

theorem pySample_ne_nil {l : List String} {k : Nat} (hl : l ≠ []) (hk : 0 < k)
    (r : Nat → Nat) : pySample l k r ≠ [] := by
  obtain ⟨k', rfl⟩ : ∃ k', k = k' + 1 := ⟨k - 1, by omega⟩
  rw [pySample, if_neg hl]
  exact List.cons_ne_nil _ _

theorem run_inference_eq_ok (o : ExecOutcome) (h : o.isLaunchError = false) :
    run_inference o = .ok (resultOf o) := by
  cases o with
  | exited c e => cases c <;> rfl
  | launchError m => simp [ExecOutcome.isLaunchError] at h

/-! ### Lemmas about one planner step -/

theorem clearIfExhausted_of_lt {videos : List String} {used : Finset String}
    (h : used.card < videos.length) : clearIfExhausted videos used = used := by
  rw [clearIfExhausted, if_neg (by omega)]

theorem clearIfExhausted_of_le {videos : List String} {used : Finset String}
    (h : videos.length ≤ used.card) : clearIfExhausted videos used = ∅ := by
  rw [clearIfExhausted, if_pos h]

theorem availOf_empty_used (videos : List String) : availOf videos ∅ = videos := by
  simp [availOf]

theorem mem_availOf {videos : List String} {used : Finset String} {v : String} :
    v ∈ availOf videos used ↔ v ∈ videos ∧ v ∉ used := by
  simp [availOf]

theorem availOf_ne_nil {videos : List String} {used : Finset String}
    (hnd : videos.Nodup) (hsub : used ⊆ videos.toFinset)
    (hlt : used.card < videos.length) : availOf videos used ≠ [] := by
  intro hnil
  have hfsub : videos.toFinset ⊆ used := by
    intro x hx
    by_contra hxn
    have hmem : x ∈ availOf videos used :=
      mem_availOf.mpr ⟨List.mem_toFinset.mp hx, hxn⟩
    rw [hnil] at hmem
    exact absurd hmem (List.not_mem_nil x)
  have hcard := Finset.card_le_card hfsub
  rw [List.toFinset_card_of_nodup hnd] at hcard
  omega

theorem planStep_true (videos : List String) (used : Finset String) (d : Nat) :
    planStep true videos used d = (pyChoice videos d, used) := rfl

theorem planStep_false_step {videos : List String} {used : Finset String} (d : Nat)
    (hnd : videos.Nodup) (hsub : used ⊆ videos.toFinset)
    (hlt : used.card < videos.length) :
    planStep false videos used d =
      (pyChoice (availOf videos used) d,
        insert (pyChoice (availOf videos used) d) used) := by
  have h1 := clearIfExhausted_of_lt hlt
  have h2 := availOf_ne_nil hnd hsub hlt
  simp only [planStep, Bool.false_eq_true, if_false, h1, if_neg h2]

theorem planStep_false_reset {videos : List String} {used : Finset String} (d : Nat)
    (hne : videos ≠ []) (hge : videos.length ≤ used.card) :
    planStep false videos used d = (pyChoice videos d, {pyChoice videos d}) := by
  have h1 := clearIfExhausted_of_le hge
  simp only [planStep, Bool.false_eq_true, if_false, h1, availOf_empty_used]
  split <;> rfl

/-! ### The no-repeat cycle invariant -/

theorem planState_invariant (videos : List String) (r : Nat → Nat)
    (hnd : videos.Nodup) (hne : videos ≠ []) (n : Nat) :
    (planState videos r n).card = cyc videos.length n ∧
      planState videos r n ⊆ videos.toFinset := by
  induction n with
  | zero => simp [planState, cyc]
  | succ n ih =>
    obtain ⟨hc, hsub⟩ := ih
    by_cases h : videos.length ≤ (planState videos r n).card
    · rw [planState, planStep_false_reset (r n) hne h]
      have hv : pyChoice videos (r n) ∈ videos := pyChoice_mem hne _
      refine ⟨?_, ?_⟩
      · rw [hc] at h
        rw [cyc, if_pos h]
        exact Finset.card_singleton _
      · intro x hx
        rw [Finset.mem_singleton] at hx
        subst hx
        exact List.mem_toFinset.mpr hv
    · push_neg at h
      rw [planState, planStep_false_step (r n) hnd hsub h]
      have hvmem : pyChoice (availOf videos (planState videos r n)) (r n) ∈
          availOf videos (planState videos r n) :=
        pyChoice_mem (availOf_ne_nil hnd hsub h) _
      rw [mem_availOf] at hvmem
      refine ⟨?_, ?_⟩
      · rw [Finset.card_insert_of_not_mem hvmem.2, hc]
        rw [hc] at h
        rw [cyc, if_neg (by omega)]
      · intro x hx
        rw [Finset.mem_insert] at hx
        rcases hx with hx | hx
        · subst hx
          exact List.mem_toFinset.mpr hvmem.1
        · exact hsub hx

theorem selAt_of_lt {videos : List String} {r : Nat → Nat}
    (hnd : videos.Nodup) (hne : videos ≠ []) (n : Nat)
    (hlt : (planState videos r n).card < videos.length) :
    selAt videos r n ∉ planState videos r n ∧
      planState videos r (n + 1) =
        insert (selAt videos r n) (planState videos r n) := by
  have hsub := (planState_invariant videos r hnd hne n).2
  have hstep := planStep_false_step (r n) hnd hsub hlt
  have hvmem : pyChoice (availOf videos (planState videos r n)) (r n) ∈
      availOf videos (planState videos r n) :=
    pyChoice_mem (availOf_ne_nil hnd hsub hlt) _
  rw [mem_availOf] at hvmem
  constructor
  · show (planStep false videos (planState videos r n) (r n)).1 ∉ _
    rw [hstep]
    exact hvmem.2
  · show (planStep false videos (planState videos r n) (r n)).2 = _
    rw [hstep]
    show _ = insert (planStep false videos (planState videos r n) (r n)).1 _
    rw [hstep]

theorem selAt_of_reset {videos : List String} {r : Nat → Nat}
    (hne : videos ≠ []) (n : Nat)
    (hge : videos.length ≤ (planState videos r n).card) :
    selAt videos r n = pyChoice videos (r n) ∧
      planState videos r (n + 1) = {selAt videos r n} := by
  have hstep := planStep_false_reset (r n) hne hge
  constructor
  · show (planStep false videos (planState videos r n) (r n)).1 = _
    rw [hstep]
  · show (planStep false videos (planState videos r n) (r n)).2 = _
    rw [hstep]
    show _ = {(planStep false videos (planState videos r n) (r n)).1}
    rw [hstep]

/-! ### Arithmetic of the cycle counter -/

theorem cyc_advance (V : Nat) (hV : 0 < V) (m : Nat)
    (hm : cyc V m = 0 ∨ cyc V m = V) :
    ∀ t, 1 ≤ t → t ≤ V → cyc V (m + t) = t := by
  intro t
  induction t with
  | zero => omega
  | succ t ih =>
    intro _ h2
    by_cases ht : t = 0
    · subst ht
      show cyc V (m + 1) = 1
      rcases hm with hm | hm
      · rw [cyc, hm, if_neg (by omega)]
      · rw [cyc, hm, if_pos (le_refl V)]
    · have hcyct : cyc V (m + t) = t := ih (by omega) (by omega)
      have : m + (t + 1) = (m + t) + 1 := by omega
      rw [this, cyc, hcyct, if_neg (by omega)]

theorem cyc_block_pos (V : Nat) (hV : 0 < V) :
    ∀ k, cyc V ((k + 1) * V) = V := by
  intro k
  induction k with
  | zero =>
    have h1 : 1 * V = 0 + V := by omega
    rw [h1, cyc_advance V hV 0 (Or.inl rfl) V hV (le_refl V)]
  | succ k ih =>
    have h1 : (k + 2) * V = (k + 1) * V + V := by ring
    rw [h1, cyc_advance V hV _ (Or.inr ih) V hV (le_refl V)]

theorem cyc_block (V : Nat) (hV : 0 < V) (k : Nat) :
    cyc V (k * V) = 0 ∨ cyc V (k * V) = V := by
  cases k with
  | zero => left; rw [Nat.zero_mul]; rfl
  | succ k => right; exact cyc_block_pos V hV k

/-! ### Distinctness within a cycle -/

theorem sel_mem_planState {videos : List String} {r : Nat → Nat}
    (hnd : videos.Nodup) (hne : videos ≠ []) (m : Nat)
    (hm : cyc videos.length m = 0 ∨ cyc videos.length m = videos.length) :
    ∀ t, 1 ≤ t → t ≤ videos.length → ∀ i, i < t →
      selAt videos r (m + i) ∈ planState videos r (m + t) := by
  have hV : 0 < videos.length := List.length_pos.mpr hne
  intro t
  induction t with
  | zero => omega
  | succ t ih =>
    intro _ h2 i hi
    by_cases ht : t = 0
    · subst ht
      have hi0 : i = 0 := by omega
      subst hi0
      rcases hm with hm0 | hmV
      · have hcard : (planState videos r m).card < videos.length := by
          rw [(planState_invariant videos r hnd hne m).1, hm0]; omega
        have := (selAt_of_lt hnd hne m hcard).2
        have hm1 : m + 1 = m + 0 + 1 := by omega
        rw [show m + 0 = m from rfl, this]
        exact Finset.mem_insert_self _ _
      · have hcard : videos.length ≤ (planState videos r m).card := by
          rw [(planState_invariant videos r hnd hne m).1, hmV]
        have := (selAt_of_reset hne m hcard).2
        rw [show m + 0 = m from rfl, this]
        exact Finset.mem_singleton_self _
    · have hcardt : (planState videos r (m + t)).card = t := by
        rw [(planState_invariant videos r hnd hne (m + t)).1]
        exact cyc_advance videos.length hV m hm t (by omega) (by omega)
      have hlt : (planState videos r (m + t)).card < videos.length := by omega
      have hins := (selAt_of_lt hnd hne (m + t) hlt).2
      have hmt : m + (t + 1) = (m + t) + 1 := by omega
      rw [hmt, hins]
      by_cases hit : i = t
      · subst hit
        exact Finset.mem_insert_self _ _
      · exact Finset.mem_insert_of_mem (ih (by omega) (by omega) i (by omega))

theorem sel_distinct_block {videos : List String} {r : Nat → Nat}
    (hnd : videos.Nodup) (hne : videos ≠ []) (m : Nat)
    (hm : cyc videos.length m = 0 ∨ cyc videos.length m = videos.length) :
    ∀ i j, i < j → j < videos.length →
      selAt videos r (m + i) ≠ selAt videos r (m + j) := by
  have hV : 0 < videos.length := List.length_pos.mpr hne
  intro i j hij hjV heq
  have hcardj : (planState videos r (m + j)).card = j := by
    rw [(planState_invariant videos r hnd hne (m + j)).1]
    exact cyc_advance videos.length hV m hm j (by omega) (by omega)
  have hjlt : (planState videos r (m + j)).card < videos.length := by omega
  have hnot := (selAt_of_lt hnd hne (m + j) hjlt).1
  have hmem := @sel_mem_planState videos r hnd hne m hm j (by omega) (by omega) i hij
  rw [heq] at hmem
  exact hnot hmem

/-! ### Lemmas about the job loop -/

theorem run_inference_ok_eq {o : ExecOutcome} {res : RunResult}
    (h : run_inference o = .ok res) : res = resultOf o := by
  cases o with
  | exited c e =>
    cases c with
    | zero => injection h with h'; rw [← h']; rfl
    | succ c => injection h with h'; rw [← h']; rfl
  | launchError m => simp [run_inference] at h

theorem run_inference_error_eq {o : ExecOutcome} {e : PyError}
    (h : run_inference o = .error e) : ∃ msg, e = .osError msg := by
  cases o with
  | exited c s => cases c <;> simp [run_inference] at h
  | launchError m => injection h with h'; exact ⟨m, h'.symm⟩

theorem planJobs_cons (videos : List String) (ar : Bool) (rng : Rng)
    (gs : Option Int) (clock : Nat → String) (audio : String) (rest : List String)
    (n : Nat) (used : Finset String) :
    planJobs videos ar rng gs clock (audio :: rest) n used =
      ⟨(planStep ar videos used (rng.choiceDraw n)).1, audio,
        output_filename (pyStem (planStep ar videos used (rng.choiceDraw n)).1)
          (pyStem audio) (clock n),
        jobSeedAt gs rng n⟩ ::
        planJobs videos ar rng gs clock rest (n + 1)
          (planStep ar videos used (rng.choiceDraw n)).2 := rfl

theorem planJobs_length (videos : List String) (ar : Bool) (rng : Rng)
    (gs : Option Int) (clock : Nat → String) :
    ∀ (toProc : List String) (n : Nat) (used : Finset String),
      (planJobs videos ar rng gs clock toProc n used).length = toProc.length := by
  intro toProc
  induction toProc with
  | nil => intro n used; rfl
  | cons audio rest ih =>
    intro n used
    rw [planJobs_cons, List.length_cons, ih, List.length_cons]

theorem planJobs_get_seed (videos : List String) (ar : Bool) (rng : Rng)
    (gs : Option Int) (clock : Nat → String) :
    ∀ (toProc : List String) (n : Nat) (used : Finset String) (i : Nat)
      (h : i < (planJobs videos ar rng gs clock toProc n used).length),
      ((planJobs videos ar rng gs clock toProc n used).get ⟨i, h⟩).seed =
        jobSeedAt gs rng (n + i) := by
  intro toProc
  induction toProc with
  | nil => intro n used i h; simp [planJobs] at h
  | cons audio rest ih =>
    intro n used i h
    cases i with
    | zero => simp [planJobs_cons]
    | succ i =>
      have hrec := ih (n + 1) (planStep ar videos used (rng.choiceDraw n)).2 i
        (by
          have := h
          rw [planJobs_cons, List.length_cons] at this
          omega)
      have harith : n + 1 + i = n + (i + 1) := by omega
      rw [harith] at hrec
      exact hrec

theorem planJobs_get_filename (videos : List String) (ar : Bool) (rng : Rng)
    (gs : Option Int) (clock : Nat → String) :
    ∀ (toProc : List String) (n : Nat) (used : Finset String) (i : Nat)
      (h : i < (planJobs videos ar rng gs clock toProc n used).length),
      ((planJobs videos ar rng gs clock toProc n used).get ⟨i, h⟩).outputFilename =
        output_filename
          (pyStem ((planJobs videos ar rng gs clock toProc n used).get ⟨i, h⟩).videoPath)
          (pyStem ((planJobs videos ar rng gs clock toProc n used).get ⟨i, h⟩).audioPath)
          (clock (n + i)) := by
  intro toProc
  induction toProc with
  | nil => intro n used i h; simp [planJobs] at h
  | cons audio rest ih =>
    intro n used i h
    cases i with
    | zero => simp [planJobs_cons]
    | succ i =>
      have hrec := ih (n + 1) (planStep ar videos used (rng.choiceDraw n)).2 i
        (by
          have := h
          rw [planJobs_cons, List.length_cons] at this
          omega)
      have harith : n + 1 + i = n + (i + 1) := by omega
      rw [harith] at hrec
      exact hrec

theorem runJobs_completed {videos : List String} {ar : Bool} {rng : Rng}
    {gs : Option Int} {clock : Nat → String} {exec : Nat → ExecOutcome} {t : ℚ} :
    ∀ (toProc : List String) (n : Nat) (used : Finset String)
      (jobs : List JobSpec) (results : List RunResult) (succ fail : Nat)
      (J : List JobSpec) (R : List RunResult) (S F : Nat) (sm : Summary),
      runJobs videos ar rng gs clock exec t toProc n used jobs results succ fail =
        .completed J R S F sm →
      J = jobs ++ planJobs videos ar rng gs clock toProc n used ∧
      R = results ++ execResultsFrom exec n toProc ∧
      S = succ + (execResultsFrom exec n toProc).countP (fun x => x.success) ∧
      F = fail + (execResultsFrom exec n toProc).countP (fun x => !x.success) ∧
      J.length ≠ 0 ∧ sm = mkSummary S F (J.length) t := by
  intro toProc
  induction toProc with
  | nil =>
    intro n used jobs results succ fail J R S F sm h
    by_cases hz : jobs.length = 0
    · rw [runJobs, finalSummary, if_pos hz] at h
      simp at h
    · rw [runJobs, finalSummary, if_neg hz] at h
      injection h with h1 h2 h3 h4 h5
      subst h1; subst h2; subst h3; subst h4
      simp [planJobs, execResultsFrom, hz, h5.symm]
  | cons audio rest ih =>
    intro n used jobs results succ fail J R S F sm h
    rw [runJobs] at h
    cases hexec : run_inference (exec n) with
    | error e => rw [hexec] at h; simp at h
    | ok res =>
      rw [hexec] at h
      obtain ⟨h1, h2, h3, h4, h5, h6⟩ := ih (n + 1) _ _ _ _ _ J R S F sm h
      have hres : res = resultOf (exec n) := run_inference_ok_eq hexec
      subst hres
      refine ⟨?_, ?_, ?_, ?_, h5, h6⟩
      · rw [h1, planJobs_cons, List.append_assoc]; rfl
      · rw [h2, execResultsFrom, List.append_assoc]; rfl
      · rw [h3, execResultsFrom, List.countP_cons]
        cases hsucc : (resultOf (exec n)).success <;> simp [hsucc] <;> omega
      · rw [h4, execResultsFrom, List.countP_cons]
        cases hsucc : (resultOf (exec n)).success <;> simp [hsucc] <;> omega

theorem runJobs_no_launch {videos : List String} {ar : Bool} {rng : Rng}
    {gs : Option Int} {clock : Nat → String} {exec : Nat → ExecOutcome} {t : ℚ}
    (hl : ∀ k, (exec k).isLaunchError = false) :
    ∀ (toProc : List String) (n : Nat) (used : Finset String)
      (jobs : List JobSpec) (results : List RunResult) (succ fail : Nat),
      jobs.length + toProc.length ≠ 0 →
      ∃ J R S F sm,
        runJobs videos ar rng gs clock exec t toProc n used jobs results succ fail =
          .completed J R S F sm := by
  intro toProc
  induction toProc with
  | nil =>
    intro n used jobs results succ fail hlen
    have hz : jobs.length ≠ 0 := by simpa using hlen
    exact ⟨jobs, results, succ, fail, mkSummary succ fail jobs.length t,
      by rw [runJobs, finalSummary, if_neg hz]⟩
  | cons audio rest ih =>
    intro n used jobs results succ fail _
    rw [runJobs, run_inference_eq_ok (exec n) (hl n)]
    exact ih (n + 1) _ _ _ _ _ (by simp)

theorem runJobs_not_zeroDiv {videos : List String} {ar : Bool} {rng : Rng}
    {gs : Option Int} {clock : Nat → String} {exec : Nat → ExecOutcome} {t : ℚ} :
    ∀ (toProc : List String) (n : Nat) (used : Finset String)
      (jobs : List JobSpec) (results : List RunResult) (succ fail : Nat),
      jobs.length + toProc.length ≠ 0 →
      (runJobs videos ar rng gs clock exec t toProc n used jobs results
        succ fail).crashedZeroDiv = false := by
  intro toProc
  induction toProc with
  | nil =>
    intro n used jobs results succ fail hlen
    have hz : jobs.length ≠ 0 := by simpa using hlen
    rw [runJobs, finalSummary, if_neg hz]
    rfl
  | cons audio rest ih =>
    intro n used jobs results succ fail _
    rw [runJobs]
    cases hexec : run_inference (exec n) with
    | error e =>
      obtain ⟨msg, rfl⟩ := run_inference_error_eq hexec
      rfl
    | ok res => exact ih (n + 1) _ _ _ _ _ (by simp)

/-! ### Lemmas about the audio-list truncation -/

theorem audioFilesToProcess_ok_length {audios : List String} {maxComb : Option Int}
    {sd : Nat → Nat} {toProc : List String}
    (h : audioFilesToProcess audios maxComb sd = .ok toProc) :
    toProc.length ≤ audios.length ∧
      ∀ m : Int, maxComb = some m → 0 < m → (toProc.length : Int) ≤ m := by
  cases maxComb with
  | none =>
    injection h with h'
    subst h'
    exact ⟨le_refl _, fun m hm => by simp at hm⟩
  | some m =>
    rw [audioFilesToProcess] at h
    by_cases hc : m ≠ 0 ∧ m < (audios.length : Int)
    · rw [if_pos hc] at h
      by_cases hneg : m < 0
      · rw [if_pos hneg] at h; simp at h
      · rw [if_neg hneg] at h
        injection h with h'
        subst h'
        refine ⟨pySample_length_le_length _ _ _, ?_⟩
        intro m' hm' _
        injection hm' with hm'
        subst hm'
        have h1 := pySample_length_le m.toNat audios sd
        omega
    · rw [if_neg hc] at h
      injection h with h'
      subst h'
      refine ⟨le_refl _, ?_⟩
      intro m' hm' hpos
      injection hm' with hm'
      subst hm'
      push_neg at hc
      have := hc (by omega)
      omega

theorem audioFilesToProcess_ok_ne_nil {audios : List String} {maxComb : Option Int}
    {sd : Nat → Nat} {toProc : List String} (ha : audios ≠ [])
    (h : audioFilesToProcess audios maxComb sd = .ok toProc) : toProc ≠ [] := by
  cases maxComb with
  | none => injection h with h'; subst h'; exact ha
  | some m =>
    rw [audioFilesToProcess] at h
    by_cases hc : m ≠ 0 ∧ m < (audios.length : Int)
    · rw [if_pos hc] at h
      by_cases hneg : m < 0
      · rw [if_pos hneg] at h; simp at h
      · rw [if_neg hneg] at h
        injection h with h'
        subst h'
        exact pySample_ne_nil ha (by omega) sd
    · rw [if_neg hc] at h
      injection h with h'
      subst h'
      exact ha

theorem audioFilesToProcess_error_eq {audios : List String} {maxComb : Option Int}
    {sd : Nat → Nat} {e : PyError}
    (h : audioFilesToProcess audios maxComb sd = .error e) :
    e = .valueError "Sample larger than population or is negative" := by
  cases maxComb with
  | none => simp [audioFilesToProcess] at h
  | some m =>
    rw [audioFilesToProcess] at h
    by_cases hc : m ≠ 0 ∧ m < (audios.length : Int)
    · rw [if_pos hc] at h
      by_cases hneg : m < 0
      · rw [if_pos hneg] at h
        injection h with h'
        exact h'.symm
      · rw [if_neg hneg] at h; simp at h
    · rw [if_neg hc] at h; simp at h

/-! ### Lemmas about the code-point order used by `sorted` -/

theorem lexLe_cons {x y : Char} {xs ys : List Char} :
    lexLe (x :: xs) (y :: ys) = true ↔
      (x.toNat < y.toNat ∨ (x.toNat = y.toNat ∧ lexLe xs ys = true)) := by
  simp only [lexLe]
  by_cases h1 : x.toNat < y.toNat
  · simp [h1]
  · by_cases h2 : y.toNat < x.toNat
    · simp [h1, h2]
      omega
    · have hxy : x.toNat = y.toNat := by omega
      simp [h1, h2, hxy]

theorem lexLe_total : ∀ a b : List Char, lexLe a b = true ∨ lexLe b a = true := by
  intro a
  induction a with
  | nil => intro b; left; rfl
  | cons x xs ih =>
    intro b
    cases b with
    | nil => right; rfl
    | cons y ys =>
      rcases Nat.lt_trichotomy x.toNat y.toNat with h | h | h
      · left; exact lexLe_cons.mpr (Or.inl h)
      · rcases ih ys with h' | h'
        · left; exact lexLe_cons.mpr (Or.inr ⟨h, h'⟩)
        · right; exact lexLe_cons.mpr (Or.inr ⟨h.symm, h'⟩)
      · right; exact lexLe_cons.mpr (Or.inl h)

theorem lexLe_trans : ∀ a b c : List Char,
    lexLe a b = true → lexLe b c = true → lexLe a c = true := by
  intro a
  induction a with
  | nil => intro b c _ _; rfl
  | cons x xs ih =>
    intro b c hab hbc
    cases b with
    | nil => simp [lexLe] at hab
    | cons y ys =>
      cases c with
      | nil => simp [lexLe] at hbc
      | cons z zs =>
        rcases lexLe_cons.mp hab with h1 | ⟨h1, h1'⟩ <;>
          rcases lexLe_cons.mp hbc with h2 | ⟨h2, h2'⟩
        · exact lexLe_cons.mpr (Or.inl (by omega))
        · exact lexLe_cons.mpr (Or.inl (by omega))
        · exact lexLe_cons.mpr (Or.inl (by omega))
        · exact lexLe_cons.mpr (Or.inr ⟨by omega, ih ys zs h1' h2'⟩)

theorem strLe_total (a b : String) : strLe a b = true ∨ strLe b a = true :=
  lexLe_total a.data b.data

theorem strLe_trans {a b c : String} (h1 : strLe a b = true) (h2 : strLe b c = true) :
    strLe a c = true :=
  lexLe_trans a.data b.data c.data h1 h2

/-! ### Timestamp injectivity of the synthesized filename -/

theorem output_filename_timestamp_inj (v a t v' a' t' : String)
    (hlen : t.length = t'.length)
    (heq : output_filename v a t = output_filename v' a' t') : t = t' := by
  have hdata := congrArg String.data heq
  simp only [output_filename, String.data_append] at hdata
  rw [List.append_assoc (v.data ++ "_".data ++ a.data ++ "_".data),
    List.append_assoc (v'.data ++ "_".data ++ a'.data ++ "_".data)] at hdata
  have hlen' : (t.data ++ ".mp4".data).length = (t'.data ++ ".mp4".data).length := by
    simp only [List.length_append]
    have : t.data.length = t'.data.length := hlen
    omega
  have h2 := (List.append_inj' hdata hlen').2
  have h3 := List.append_cancel_right h2
  exact String.ext h3

/-! ### Claim theorems -/

/-- Claim C1 (code bug): the `--allow_repeat_videos` CLI flag cannot select
the no-repeat policy.  Because `argparse` declares it with
`action="store_true"` and `default=True`, the parsed value is `true`
whether or not the flag appears on the command line, so the planner always
draws a uniform choice from the full video list and never touches the
used-video set; the no-repeat branch is unreachable from the CLI. -/
theorem c1_allow_repeat_flag_ineffective (flagPresent : Bool)
    (videos : List String) (used : Finset String) (d : Nat) :
    parseAllowRepeatVideos flagPresent = true ∧
      planStep (parseAllowRepeatVideos flagPresent) videos used d =
        (pyChoice videos d, used) := by
  cases flagPresent <;> exact ⟨rfl, rfl⟩

/-- Claim C4: with the no-repeat policy over a duplicate-free non-empty
video pool of size `V`, no video path is selected twice within one cycle
of `V` selections (cycle `k` covers steps `k*V` to `k*V + V - 1`); after
the `V` selections of a cycle the used set is cleared: the next selection
is again a uniform choice over the full video list (so it may repeat a
prior video), and right after it the used set contains only that
selection. -/
theorem c4_no_repeat_cycle (videos : List String) (r : Nat → Nat)
    (hnd : videos.Nodup) (hne : videos ≠ []) (k : Nat) :
    (∀ i j, i < j → j < videos.length →
      selAt videos r (k * videos.length + i) ≠
        selAt videos r (k * videos.length + j)) ∧
    selAt videos r ((k + 1) * videos.length) =
      pyChoice videos (r ((k + 1) * videos.length)) ∧
    planState videos r ((k + 1) * videos.length + 1) =
      {selAt videos r ((k + 1) * videos.length)} := by
  have hV : 0 < videos.length := List.length_pos.mpr hne
  have hblk := cyc_block videos.length hV k
  have hreset : videos.length ≤
      (planState videos r ((k + 1) * videos.length)).card := by
    rw [(planState_invariant videos r hnd hne _).1, cyc_block_pos videos.length hV k]
  exact ⟨sel_distinct_block hnd hne _ hblk,
    (selAt_of_reset hne _ hreset).1, (selAt_of_reset hne _ hreset).2⟩

/-- Closed instance of C4 on the pool `["a.mp4", "b.mp4"]`: the first two
selections differ, and the third (right after the reset) is drawn from the
full pool. -/
theorem c4_no_repeat_cycle_witness :
    decide (selAt ["a.mp4", "b.mp4"] (fun _ => 0) 0 =
      selAt ["a.mp4", "b.mp4"] (fun _ => 0) 1) = false ∧
    selAt ["a.mp4", "b.mp4"] (fun _ => 0) 2 = pyChoice ["a.mp4", "b.mp4"] 0 := by
  constructor
  · exact decide_eq_false
      ((c4_no_repeat_cycle ["a.mp4", "b.mp4"] (fun _ => 0) (by decide) (by decide) 0).1
        0 1 (by decide) (by decide))
  · exact (c4_no_repeat_cycle ["a.mp4", "b.mp4"] (fun _ => 0) (by decide) (by decide) 0).2.1

/-- Claim C7: if either discovered list is empty the program exits early
with the corresponding message, attempts zero jobs, and the outcome does
not depend on the external command at all (the command is never invoked). -/
theorem c7_empty_inputs_fail_fast (videos audios : List String) (mc : Option Int)
    (ar : Bool) (gs : Option Int) (mt : Int → Rng) (e : Rng) (clock : Nat → String)
    (exec exec' : Nat → ExecOutcome) (t : ℚ) :
    (videos = [] →
      mainRun videos audios mc ar gs mt e clock exec t =
        .earlyExit "No video files found!" ∧
      (mainRun videos audios mc ar gs mt e clock exec t).jobCount = 0 ∧
      mainRun videos audios mc ar gs mt e clock exec t =
        mainRun videos audios mc ar gs mt e clock exec' t) ∧
    (videos ≠ [] → audios = [] →
      mainRun videos audios mc ar gs mt e clock exec t =
        .earlyExit "No audio files found!" ∧
      (mainRun videos audios mc ar gs mt e clock exec t).jobCount = 0 ∧
      mainRun videos audios mc ar gs mt e clock exec t =
        mainRun videos audios mc ar gs mt e clock exec' t) := by
  constructor
  · intro hv
    have h1 : mainRun videos audios mc ar gs mt e clock exec t =
        .earlyExit "No video files found!" := by
      simp only [mainRun]
      rw [if_pos hv]
    have h2 : mainRun videos audios mc ar gs mt e clock exec' t =
        .earlyExit "No video files found!" := by
      simp only [mainRun]
      rw [if_pos hv]
    exact ⟨h1, by rw [h1]; rfl, by rw [h1, h2]⟩
  · intro hv ha
    have h1 : mainRun videos audios mc ar gs mt e clock exec t =
        .earlyExit "No audio files found!" := by
      simp only [mainRun]
      rw [if_neg hv, if_pos ha]
    have h2 : mainRun videos audios mc ar gs mt e clock exec' t =
        .earlyExit "No audio files found!" := by
      simp only [mainRun]
      rw [if_neg hv, if_pos ha]
    exact ⟨h1, by rw [h1]; rfl, by rw [h1, h2]⟩

/-- Closed instance of C7: an empty video list and, separately, an empty
audio list both exit early with the respective message, with zero jobs and
no dependence on the external command. -/
theorem c7_empty_inputs_fail_fast_witness :
    (mainRun [] ["a.wav"] none true none mt0 rng0 clock0 execOk 1 =
      .earlyExit "No video files found!" ∧
      (mainRun [] ["a.wav"] none true none mt0 rng0 clock0 execOk 1).jobCount = 0) ∧
    (mainRun ["v.mp4"] [] none true none mt0 rng0 clock0 execOk 1 =
      .earlyExit "No audio files found!" ∧
      (mainRun ["v.mp4"] [] none true none mt0 rng0 clock0 execOk 1).jobCount = 0) := by
  constructor
  · have h := (c7_empty_inputs_fail_fast [] ["a.wav"] none true none mt0 rng0 clock0
      execOk execOk 1).1 rfl
    exact ⟨h.1, h.2.1⟩
  · have h := (c7_empty_inputs_fail_fast ["v.mp4"] [] none true none mt0 rng0 clock0
      execOk execOk 1).2 (by decide) rfl
    exact ⟨h.1, h.2.1⟩

/-- Claim C8: discovery on a missing directory returns `[]` rather than an
error; on an existing directory it returns exactly the entries matching the
fixed extension (`*.mp4` resp. `*.wav`), sorted in Python's string order. -/
theorem c8_discovery_sorted_filtered (listing : Option (List String)) :
    get_video_files none = [] ∧ get_audio_files none = [] ∧
    List.Pairwise (fun x y => strLe x y = true) (get_video_files listing) ∧
    List.Pairwise (fun x y => strLe x y = true) (get_audio_files listing) ∧
    (∀ f, f ∈ get_video_files listing ↔
      ∃ l, listing = some l ∧ f ∈ l ∧ globMatchExt ".mp4" f = true) ∧
    (∀ f, f ∈ get_audio_files listing ↔
      ∃ l, listing = some l ∧ f ∈ l ∧ globMatchExt ".wav" f = true) := by
  refine ⟨rfl, rfl, ?_, ?_, ?_, ?_⟩
  · cases listing with
    | none => exact List.Pairwise.nil
    | some l =>
      exact @List.sorted_insertionSort String (fun x y => strLe x y = true) _
        ⟨strLe_total⟩ ⟨fun _ _ _ => strLe_trans⟩ _
  · cases listing with
    | none => exact List.Pairwise.nil
    | some l =>
      exact @List.sorted_insertionSort String (fun x y => strLe x y = true) _
        ⟨strLe_total⟩ ⟨fun _ _ _ => strLe_trans⟩ _
  · intro f
    cases listing with
    | none => simp [get_video_files]
    | some l =>
      simp only [get_video_files, List.mem_insertionSort, List.mem_filter]
      constructor
      · rintro ⟨hmem, hglob⟩
        exact ⟨l, rfl, hmem, hglob⟩
      · rintro ⟨l', hl', hmem, hglob⟩
        injection hl' with hl'
        subst hl'
        exact ⟨hmem, hglob⟩
  · intro f
    cases listing with
    | none => simp [get_audio_files]
    | some l =>
      simp only [get_audio_files, List.mem_insertionSort, List.mem_filter]
      constructor
      · rintro ⟨hmem, hglob⟩
        exact ⟨l, rfl, hmem, hglob⟩
      · rintro ⟨l', hl', hmem, hglob⟩
        injection hl' with hl'
        subst hl'
        exact ⟨hmem, hglob⟩

/-- Closed instance of C8: `a.mp4` is discovered in a listing that also
contains a non-matching entry. -/
theorem c8_discovery_sorted_filtered_witness :
    "a.mp4" ∈ get_video_files (some ["b.mp4", "a.mp4", "c.wav"]) :=
  ((c8_discovery_sorted_filtered (some ["b.mp4", "a.mp4", "c.wav"])).2.2.2.2.1
      "a.mp4").mpr
    ⟨["b.mp4", "a.mp4", "c.wav"], rfl, by decide, by decide⟩

/-- Claim C10: a negative `--max_combinations` with non-empty input lists
is truthy and smaller than the audio count, so planning calls
`random.sample` with a negative count and a `ValueError` propagates
uncaught, instead of producing jobs or printing the configuration
message. -/
theorem c10_negative_cap_uncaught (videos audios : List String) (m : Int)
    (ar : Bool) (gs : Option Int) (mt : Int → Rng) (e : Rng) (clock : Nat → String)
    (exec : Nat → ExecOutcome) (t : ℚ)
    (hv : videos ≠ []) (ha : audios ≠ []) (hm : m < 0) :
    mainRun videos audios (some m) ar gs mt e clock exec t =
      .uncaught (.valueError "Sample larger than population or is negative") := by
  simp only [mainRun]
  rw [if_neg hv, if_neg ha]
  have hlen : 0 < audios.length := List.length_pos.mpr ha
  have hcond : m ≠ 0 ∧ m < (audios.length : Int) := ⟨by omega, by
    have : (0 : Int) < (audios.length : Int) := by exact_mod_cast hlen
    omega⟩
  rw [audioFilesToProcess, if_pos hcond, if_pos hm]

/-- Closed instance of C10: cap `-1` with one video and one audio file
crashes with the `ValueError` of `random.sample`. -/
theorem c10_negative_cap_uncaught_witness :
    mainRun ["v.mp4"] ["a.wav"] (some (-1)) true none mt0 rng0 clock0 execOk 1 =
      .uncaught (.valueError "Sample larger than population or is negative") :=
  c10_negative_cap_uncaught ["v.mp4"] ["a.wav"] (-1) true none mt0 rng0 clock0
    execOk 1 (by decide) (by decide) (by decide)

/-! ### Helper lemmas for the remaining claims -/

theorem countP_success_total : ∀ l : List RunResult,
    l.countP (fun x => x.success) + l.countP (fun x => !x.success) = l.length := by
  intro l
  induction l with
  | nil => rfl
  | cons a l ih =>
    rw [List.countP_cons, List.countP_cons, List.length_cons]
    cases ha : a.success <;> simp [ha] <;> omega

theorem execResultsFrom_length (exec : Nat → ExecOutcome) :
    ∀ (toProc : List String) (n : Nat),
      (execResultsFrom exec n toProc).length = toProc.length := by
  intro toProc
  induction toProc with
  | nil => intro n; rfl
  | cons a rest ih => intro n; rw [execResultsFrom, List.length_cons, ih, List.length_cons]

/-- Claim C2 counterexample: when the external command cannot be launched
(`OSError`, e.g. `FileNotFoundError`), the exception is not recovered at
the job boundary: the whole run aborts as an uncaught error instead of
counting a failure and continuing. -/
theorem c2_launch_error_propagates_cex :
    mainRun ["v.mp4"] ["a.wav"] none true none mt0 rng0 clock0
      (fun _ => .launchError "FileNotFoundError") 1 =
      .uncaught (.osError "FileNotFoundError") := by decide

/-- Claim C2 amended: a nonzero exit status is recovered locally — the
captured stderr is kept in the failure result, the job is counted, and the
loop runs to completion whenever no launch failure occurs (every job gets
a result, successes and failures partition the jobs); a launch failure, by
contrast, is what the counterexample shows to propagate. -/
theorem c2_nonzero_exit_recovered (videos audios : List String)
    (ar : Bool) (gs : Option Int) (mt : Int → Rng) (e : Rng) (clock : Nat → String)
    (exec : Nat → ExecOutcome) (t : ℚ) (c : Nat) (stderr : String)
    (hv : videos ≠ []) (ha : audios ≠ [])
    (hc : c ≠ 0) (hl : ∀ k, (exec k).isLaunchError = false) :
    run_inference (.exited c stderr) = .ok ⟨false, some stderr⟩ ∧
    ∃ J R S F sm,
      mainRun videos audios none ar gs mt e clock exec t = .completed J R S F sm ∧
      R = execResultsFrom exec 0 audios ∧
      S + F = J.length ∧
      F = (execResultsFrom exec 0 audios).countP (fun x => !x.success) := by
  constructor
  · obtain ⟨c', rfl⟩ : ∃ c', c = c' + 1 := ⟨c - 1, by omega⟩
    rfl
  · have hafp : audioFilesToProcess audios none (seededRng mt e gs).sampleDraw =
        .ok audios := rfl
    have hlen0 : ([] : List JobSpec).length + audios.length ≠ 0 := by
      have := List.length_pos.mpr ha
      simp only [List.length_nil]
      omega
    obtain ⟨J, R, S, F, sm, hr⟩ :=
      runJobs_no_launch hl audios 0 ∅ [] [] 0 0 hlen0
    obtain ⟨hJ, hR, hS, hF, hJlen, hsm⟩ :=
      runJobs_completed audios 0 ∅ [] [] 0 0 J R S F sm hr
    refine ⟨J, R, S, F, sm, ?_, ?_, ?_, ?_⟩
    · simp only [mainRun]
      rw [if_neg hv, if_neg ha]
      simp only [hafp]
      exact hr
    · rw [hR, List.nil_append]
    · rw [hS, hF, hJ, List.nil_append, planJobs_length]
      have := countP_success_total (execResultsFrom exec 0 audios)
      have := execResultsFrom_length exec audios 0
      omega
    · rw [hF, Nat.zero_add]

/-- Claim C3 counterexample: with `--max_combinations 0`, one video file and
one audio file, the run still processes one job although
`min(len(audio_files), 0) = 0` — the zero cap is falsy in Python and thus
ignored. -/
theorem c3_zero_cap_processes_all_cex :
    (mainRun ["v.mp4"] ["a.wav"] (some 0) true none mt0 rng0 clock0 execOk 1).jobCount
        = 1 ∧
    decide ((mainRun ["v.mp4"] ["a.wav"] (some 0) true none mt0 rng0 clock0
        execOk 1).jobCount ≤ min 1 0) = false := by
  exact ⟨by decide, by decide⟩

/-- Claim C3 amended: the planner produces at most
`min(len(audio_files), cap)` jobs when the cap is a positive integer, and
at most `len(audio_files)` jobs when the cap is unset — or zero, which
Python's truthiness test treats like unset (a negative cap instead raises,
see C10). -/
theorem c3_job_count_within_cap (videos audios : List String) (mc : Option Int)
    (ar : Bool) (gs : Option Int) (mt : Int → Rng) (e : Rng) (clock : Nat → String)
    (exec : Nat → ExecOutcome) (t : ℚ) :
    jobCountWithinCap audios mc (mainRun videos audios mc ar gs mt e clock exec t) := by
  simp only [mainRun]
  by_cases hv : videos = []
  · rw [if_pos hv]; trivial
  · rw [if_neg hv]
    by_cases ha : audios = []
    · rw [if_pos ha]; trivial
    · rw [if_neg ha]
      cases hap : audioFilesToProcess audios mc (seededRng mt e gs).sampleDraw with
      | error er => simp only [hap]; trivial
      | ok toProc =>
        simp only [hap]
        cases hr : runJobs videos ar (seededRng mt e gs) gs clock exec t
            toProc 0 ∅ [] [] 0 0 with
        | earlyExit msg => trivial
        | uncaught er => trivial
        | completed J R S F sm =>
          obtain ⟨hJ, _, _, _, _, _⟩ :=
            runJobs_completed toProc 0 ∅ [] [] 0 0 J R S F sm hr
          show (J.length : Int) ≤ capBound mc audios
          rw [hJ, List.nil_append, planJobs_length]
          obtain ⟨hle, hcap⟩ := audioFilesToProcess_ok_length hap
          cases mc with
          | none =>
            show (toProc.length : Int) ≤ (audios.length : Int)
            exact_mod_cast hle
          | some m =>
            show (toProc.length : Int) ≤
              if 0 < m then min m (audios.length : Int) else (audios.length : Int)
            by_cases hm : 0 < m
            · rw [if_pos hm]
              have h1 := hcap m rfl hm
              have h2 : (toProc.length : Int) ≤ (audios.length : Int) := by
                exact_mod_cast hle
              exact le_min h1 h2
            · rw [if_neg hm]
              exact_mod_cast hle

/-- Claim C5 counterexample: two different (video, audio) pairs planned in
the same wall-clock second produce the same output filename
(`a` + `x_y` and `a_x` + `y` both synthesize `a_x_y_<timestamp>.mp4`), so
filenames within one run are not guaranteed unique. -/
theorem c5_duplicate_filenames_cex :
    (mainRun ["a.mp4", "a_x.mp4"] ["x_y.wav", "y.wav"] none true none mt0 rng0
        clock0 execOk 1).filenames =
      ["a_x_y_20240101_000000.mp4", "a_x_y_20240101_000000.mp4"] := by decide

/-- Claim C5 amended: every job's output filename is synthesized from the
video stem, the audio stem and the planning-time timestamp of its slot;
filenames are only guaranteed distinct across distinct timestamps — two
synthesized filenames with equal-length timestamps can be equal only if
the timestamps coincide, while within one second distinct pairs may
collide (see the counterexample). -/
theorem c5_filename_synthesis (videos audios : List String) (mc : Option Int)
    (ar : Bool) (gs : Option Int) (mt : Int → Rng) (e : Rng) (clock : Nat → String)
    (exec : Nat → ExecOutcome) (t : ℚ) :
    filenamesSynthesized clock (mainRun videos audios mc ar gs mt e clock exec t) ∧
    ∀ (vs as ts vs' as' ts' : String), ts.length = ts'.length →
      output_filename vs as ts = output_filename vs' as' ts' → ts = ts' := by
  constructor
  · simp only [mainRun]
    by_cases hv : videos = []
    · rw [if_pos hv]; trivial
    · rw [if_neg hv]
      by_cases ha : audios = []
      · rw [if_pos ha]; trivial
      · rw [if_neg ha]
        cases hap : audioFilesToProcess audios mc (seededRng mt e gs).sampleDraw with
        | error er => simp only [hap]; trivial
        | ok toProc =>
          simp only [hap]
          cases hr : runJobs videos ar (seededRng mt e gs) gs clock exec t
              toProc 0 ∅ [] [] 0 0 with
          | earlyExit msg => trivial
          | uncaught er => trivial
          | completed J R S F sm =>
            obtain ⟨hJ, _, _, _, _, _⟩ :=
              runJobs_completed toProc 0 ∅ [] [] 0 0 J R S F sm hr
            rw [List.nil_append] at hJ
            show J.map (fun j => j.outputFilename) =
              (J.zip (List.range J.length)).map
                (fun q => output_filename (pyStem q.1.videoPath)
                  (pyStem q.1.audioPath) (clock q.2))
            subst hJ
            apply List.ext_getElem
            · simp
            · intro i h1 h2
              rw [List.getElem_map, List.getElem_map, List.getElem_zip,
                List.getElem_range]
              have hlen : i < (planJobs videos ar (seededRng mt e gs) gs clock
                  toProc 0 ∅).length := by simpa using h1
              have hfile := planJobs_get_filename videos ar (seededRng mt e gs) gs
                clock toProc 0 ∅ i hlen
              rw [List.get_eq_getElem] at hfile
              simpa using hfile
  · intro vs as ts vs' as' ts' hlen heq
    exact output_filename_timestamp_inj vs as ts vs' as' ts' hlen heq

/-- Closed instance of C5 amended: the one-job run has its filename
synthesized from the stems and the timestamp, and the concrete collision
`a_b` + `c` vs. `a` + `b_c` discharges the injectivity hypotheses at a
shared timestamp. -/
theorem c5_filename_synthesis_witness :
    filenamesSynthesized clock0
      (mainRun ["v.mp4"] ["a.wav"] none true none mt0 rng0 clock0 execOk 1) ∧
    ("20240101_000000" : String) = "20240101_000000" := by
  refine ⟨(c5_filename_synthesis ["v.mp4"] ["a.wav"] none true none mt0 rng0
    clock0 execOk 1).1, ?_⟩
  exact (c5_filename_synthesis ["v.mp4"] ["a.wav"] none true none mt0 rng0
      clock0 execOk 1).2
    "a_b" "c" "20240101_000000" "a" "b_c" "20240101_000000" (by decide) (by decide)

/-- Claim C6 counterexample: the success-rate and average-time divisions of
the final summary are not guarded — with zero jobs processed the summary
raises `ZeroDivisionError` (modelled as `none`) instead of printing a
guarded value. -/
theorem c6_zero_jobs_division_unguarded_cex : finalSummary 0 0 0 (37 : ℚ) = none := rfl

/-- Claim C6 amended: the final summary prints the totals, the success rate
`successful/combination_count*100`, the total wall time and the average
time per job; the division is not guarded in the code, but no run can
reach the summary with zero jobs (empty inputs exit early, a negative cap
raises beforehand), so the unguarded division never divides by zero. -/
theorem c6_summary_no_zero_division (videos audios : List String) (mc : Option Int)
    (ar : Bool) (gs : Option Int) (mt : Int → Rng) (e : Rng) (clock : Nat → String)
    (exec : Nat → ExecOutcome) (t : ℚ) :
    (mainRun videos audios mc ar gs mt e clock exec t).crashedZeroDiv = false ∧
    summaryWellFormed t (mainRun videos audios mc ar gs mt e clock exec t) := by
  simp only [mainRun]
  by_cases hv : videos = []
  · rw [if_pos hv]; exact ⟨rfl, trivial⟩
  · rw [if_neg hv]
    by_cases ha : audios = []
    · rw [if_pos ha]; exact ⟨rfl, trivial⟩
    · rw [if_neg ha]
      cases hap : audioFilesToProcess audios mc (seededRng mt e gs).sampleDraw with
      | error er =>
        simp only [hap]
        obtain rfl := audioFilesToProcess_error_eq hap
        exact ⟨rfl, trivial⟩
      | ok toProc =>
        simp only [hap]
        have hne : toProc ≠ [] := audioFilesToProcess_ok_ne_nil ha hap
        have hlen0 : ([] : List JobSpec).length + toProc.length ≠ 0 := by
          have := List.length_pos.mpr hne
          simp only [List.length_nil]
          omega
        refine ⟨runJobs_not_zeroDiv toProc 0 ∅ [] [] 0 0 hlen0, ?_⟩
        cases hr : runJobs videos ar (seededRng mt e gs) gs clock exec t
            toProc 0 ∅ [] [] 0 0 with
        | earlyExit msg => trivial
        | uncaught er => trivial
        | completed J R S F sm =>
          obtain ⟨hJ, hR, hS, hF, hJlen, hsm⟩ :=
            runJobs_completed toProc 0 ∅ [] [] 0 0 J R S F sm hr
          subst hsm
          exact ⟨by omega, rfl, rfl, rfl, rfl, rfl, rfl⟩

/-- Claim C9: with a global seed `s`, the run is independent of the OS
entropy source (so two runs over the same directory snapshot with the same
seed produce identical pairings, filenames and per-job seeds), and every
job's external invocation carries exactly the seed `s`; without a global
seed, job `i`'s seed is the fresh independent draw `i` of the seed
stream. -/
theorem c9_seed_reproducibility (videos audios : List String) (mc : Option Int)
    (ar : Bool) (s : Int) (mt : Int → Rng) (e1 e2 : Rng) (clock : Nat → String)
    (exec : Nat → ExecOutcome) (t : ℚ) :
    mainRun videos audios mc ar (some s) mt e1 clock exec t =
      mainRun videos audios mc ar (some s) mt e2 clock exec t ∧
    (mainRun videos audios mc ar (some s) mt e1 clock exec t).seedsAllEq s = true ∧
    freshSeedsSpec e1 (mainRun videos audios mc ar none mt e1 clock exec t) := by
  refine ⟨rfl, ?_, ?_⟩
  · simp only [mainRun]
    by_cases hv : videos = []
    · rw [if_pos hv]; rfl
    · rw [if_neg hv]
      by_cases ha : audios = []
      · rw [if_pos ha]; rfl
      · rw [if_neg ha]
        cases hap : audioFilesToProcess audios mc
            (seededRng mt e1 (some s)).sampleDraw with
        | error er => simp only [hap]; rfl
        | ok toProc =>
          simp only [hap]
          cases hr : runJobs videos ar (seededRng mt e1 (some s)) (some s) clock
              exec t toProc 0 ∅ [] [] 0 0 with
          | earlyExit msg => rfl
          | uncaught er => rfl
          | completed J R S F sm =>
            obtain ⟨hJ, _, _, _, _, _⟩ :=
              runJobs_completed toProc 0 ∅ [] [] 0 0 J R S F sm hr
            rw [List.nil_append] at hJ
            show J.all (fun j => j.seed == s) = true
            rw [List.all_eq_true]
            intro j hj
            rw [hJ] at hj
            obtain ⟨⟨i, hi⟩, hget⟩ := List.mem_iff_get.mp hj
            rw [← hget]
            rw [planJobs_get_seed videos ar (seededRng mt e1 (some s)) (some s)
              clock toProc 0 ∅ i hi]
            simp [jobSeedAt]
  · simp only [mainRun]
    by_cases hv : videos = []
    · rw [if_pos hv]; trivial
    · rw [if_neg hv]
      by_cases ha : audios = []
      · rw [if_pos ha]; trivial
      · rw [if_neg ha]
        cases hap : audioFilesToProcess audios mc
            (seededRng mt e1 none).sampleDraw with
        | error er => simp only [hap]; trivial
        | ok toProc =>
          simp only [hap]
          cases hr : runJobs videos ar (seededRng mt e1 none) none clock
              exec t toProc 0 ∅ [] [] 0 0 with
          | earlyExit msg => trivial
          | uncaught er => trivial
          | completed J R S F sm =>
            obtain ⟨hJ, _, _, _, _, _⟩ :=
              runJobs_completed toProc 0 ∅ [] [] 0 0 J R S F sm hr
            rw [List.nil_append] at hJ
            show J.map (fun j => j.seed) =
              (List.range J.length).map (fun i => jobSeedAt none e1 i)
            subst hJ
            apply List.ext_getElem
            · simp
            · intro i h1 h2
              rw [List.getElem_map, List.getElem_map, List.getElem_range]
              have hlen : i < (planJobs videos ar (seededRng mt e1 none) none
                  clock toProc 0 ∅).length := by simpa using h1
              have hseed := planJobs_get_seed videos ar (seededRng mt e1 none) none
                clock toProc 0 ∅ i hlen
              rw [List.get_eq_getElem] at hseed
              rw [hseed]
              simp [seededRng]

/-- Closed instance of C2 amended: an external command that always exits
with status 1 and stderr `boom` yields a completed one-job run whose single
result is the captured failure. -/
theorem c2_nonzero_exit_recovered_witness :
    run_inference (.exited 1 "boom") = .ok ⟨false, some "boom"⟩ ∧
    ∃ J R S F sm,
      mainRun ["v.mp4"] ["a.wav"] none true none mt0 rng0 clock0
          (fun _ => .exited 1 "boom") 1 = .completed J R S F sm ∧
      R = execResultsFrom (fun _ => .exited 1 "boom") 0 ["a.wav"] ∧
      S + F = J.length ∧
      F = (execResultsFrom (fun _ => .exited 1 "boom") 0 ["a.wav"]).countP
        (fun x => !x.success) :=
  c2_nonzero_exit_recovered ["v.mp4"] ["a.wav"] true none mt0 rng0 clock0
    (fun _ => .exited 1 "boom") 1 1 "boom" (by decide) (by decide) (by decide)
    (fun _ => rfl)
